import Mathlib

/-!
Verification of the libMesh mesh-to-mesh field transfer driver and the
InfHex8 geometry routines, shallowly embedded in Lean 4.

The embedding covers:
* `InfHex8.contains_point` and `InfHex8.embedding_matrix`
  (from `src/src/geom/cell_inf_hex8.C`);
* the field-transfer driver `main` (from `src/unnamed/part_000`): the
  cached point locator in front of the octree search, the quadrature
  error-accumulation pass, and the nodal-difference pass.

Machine reals (`Real`/`Number` in the C++ source) are embedded as `ℚ`
in the geometry section and as an arbitrary commutative ring `K` in
the driver section, so that all definitions are executable and exact;
the external finite-element capabilities (inverse map, shape values,
quadrature data) are abstract function parameters, exactly as the
driver treats them (black boxes invoked at specific moments).
-/

namespace LibMesh

/-! ## Geometry: points with rational coordinates -/

/-- A point in 3-space, as used by `InfHex8::contains_point`. -/
structure Pt3 where
  x : ℚ
  y : ℚ
  z : ℚ
deriving DecidableEq, Repr

/-- Componentwise difference of points (`Point` subtraction). -/
def Pt3.sub (p q : Pt3) : Pt3 := ⟨p.x - q.x, p.y - q.y, p.z - q.z⟩

/-- `Point::norm_sq()`: squared Euclidean norm. -/
def Pt3.norm_sq (p : Pt3) : ℚ := p.x * p.x + p.y * p.y + p.z * p.z

/-! ## `InfHex8::contains_point` (src/src/geom/cell_inf_hex8.C, lines 182-241)

The element's data relevant to `contains_point` are its `origin()` and
its four base nodes `point(0) .. point(3)`.  The fallback
`FEInterface::inverse_map` / `FEInterface::on_reference_element` pair
is external to this file's sources and is passed in as abstract
functions. -/

/-- The minimal squared distance of the four base nodes from the
origin, computed exactly as in the source
(`std::min` of the four `norm_sq` values). -/
def min_distance_sq (origin p0 p1 p2 p3 : Pt3) : ℚ :=
  min ((p0.sub origin).norm_sq)
    (min ((p1.sub origin).norm_sq)
      (min ((p2.sub origin).norm_sq) ((p3.sub origin).norm_sq)))

/-- `1.01 * (p - origin).norm_sq()`: the conservative squared distance
of the query point from the origin. -/
def conservative_p_dist_sq (origin p : Pt3) : ℚ :=
  (101 / 100) * ((p.sub origin).norm_sq)

/-- `InfHex8::contains_point(p, tol)`.  `invMap` stands for
`FEInterface::inverse_map(dim, fe_type, this, p, tol, false)` and
`onRef` for `FEInterface::on_reference_element(mapped, type, tol)`. -/
def contains_point (origin p0 p1 p2 p3 : Pt3)
    (invMap : Pt3 → ℚ → Pt3) (onRef : Pt3 → ℚ → Bool)
    (p : Pt3) (tol : ℚ) : Bool :=
  if conservative_p_dist_sq origin p < min_distance_sq origin p0 p1 p2 p3 then
    false
  else
    onRef (invMap p tol) tol

/-! ## `InfHex8::_embedding_matrix` (src/src/geom/cell_inf_hex8.C, lines 277-330) -/

/-- `InfHex8::_embedding_matrix`: 4 children, 8 child nodes, 8 parent
node coefficients each; entry `[c][n][j]` is the coefficient of parent
node `j` in child `c`'s node `n`. -/
def embedding_matrix : List (List (List ℚ)) :=
  [ -- child 0
    [ [1,    0,    0,    0,    0,    0,    0,    0],
      [1/2,  1/2,  0,    0,    0,    0,    0,    0],
      [1/4,  1/4,  1/4,  1/4,  0,    0,    0,    0],
      [1/2,  0,    0,    1/2,  0,    0,    0,    0],
      [0,    0,    0,    0,    1,    0,    0,    0],
      [0,    0,    0,    0,    1/2,  1/2,  0,    0],
      [0,    0,    0,    0,    1/4,  1/4,  1/4,  1/4],
      [0,    0,    0,    0,    1/2,  0,    0,    1/2] ],
    -- child 1
    [ [1/2,  1/2,  0,    0,    0,    0,    0,    0],
      [0,    1,    0,    0,    0,    0,    0,    0],
      [0,    1/2,  1/2,  0,    0,    0,    0,    0],
      [1/4,  1/4,  1/4,  1/4,  0,    0,    0,    0],
      [0,    0,    0,    0,    1/2,  1/2,  0,    0],
      [0,    0,    0,    0,    0,    1,    0,    0],
      [0,    0,    0,    0,    0,    1/2,  1/2,  0],
      [0,    0,    0,    0,    1/4,  1/4,  1/4,  1/4] ],
    -- child 2
    [ [1/2,  0,    0,    1/2,  0,    0,    0,    0],
      [1/4,  1/4,  1/4,  1/4,  0,    0,    0,    0],
      [0,    0,    1/2,  1/2,  0,    0,    0,    0],
      [0,    0,    0,    1,    0,    0,    0,    0],
      [0,    0,    0,    0,    1/2,  0,    0,    1/2],
      [0,    0,    0,    0,    1/4,  1/4,  1/4,  1/4],
      [0,    0,    0,    0,    0,    0,    1/2,  1/2],
      [0,    0,    0,    0,    0,    0,    0,    1] ],
    -- child 3
    [ [1/4,  1/4,  1/4,  1/4,  0,    0,    0,    0],
      [0,    1/2,  1/2,  0,    0,    0,    0,    0],
      [0,    0,    1,    0,    0,    0,    0,    0],
      [0,    0,    1/2,  1/2,  0,    0,    0,    0],
      [0,    0,    0,    0,    1/4,  1/4,  1/4,  1/4],
      [0,    0,    0,    0,    0,    1/2,  1/2,  0],
      [0,    0,    0,    0,    0,    0,    1,    0],
      [0,    0,    0,    0,    0,    0,    1/2,  1/2] ] ]

end LibMesh

/-! ## Theorems for the InfHex8 claims -/

open LibMesh

/-- **C10.** The embedding matrix has 4 children of 8 child-node rows
with 8 parent-node coefficients each; every row sums exactly to 1 (so
each child node is an affine combination of the parent's nodes), and
every coefficient is one of 0, 1/4, 1/2, 1 — values exactly
representable in binary floating point. -/
theorem InfHex8_embedding_matrix_rows_affine :
    LibMesh.embedding_matrix.length = 4
    ∧ ∀ child ∈ LibMesh.embedding_matrix, child.length = 8
      ∧ ∀ row ∈ child, row.length = 8 ∧ row.sum = 1
        ∧ ∀ q ∈ row, q = 0 ∨ q = 1/4 ∨ q = 1/2 ∨ q = 1 := by
  refine ⟨rfl, ?_⟩
  intro child hc
  fin_cases hc <;> refine ⟨rfl, ?_⟩ <;> intro row hr <;>
    fin_cases hr <;> refine ⟨rfl, by norm_num, ?_⟩ <;>
    intro q hq <;> fin_cases hq <;> norm_num

/-- Witness for **C10** at a concrete row: the first row of the first
child's embedding matrix sums to 1 and its first coefficient is one of
the four allowed values. -/
theorem InfHex8_embedding_matrix_rows_affine_witness :
    (([1, 0, 0, 0, 0, 0, 0, 0] : List ℚ).sum = 1)
    ∧ ((1 : ℚ) = 0 ∨ (1 : ℚ) = 1/4 ∨ (1 : ℚ) = 1/2 ∨ (1 : ℚ) = 1) := by
  have h := (InfHex8_embedding_matrix_rows_affine.2 _
    (List.Mem.head _)).2 _ (List.Mem.head _)
  exact ⟨h.2.1, h.2.2 _ (List.Mem.head _)⟩

/-- **C9.** `InfHex8::contains_point(p, tol)` returns `false` whenever
`1.01` times the squared distance of `p` from the element's origin is
strictly below the minimal squared distance of the four base nodes
from the origin — independently of the inverse-map and
on-reference-element callbacks, which shows the early exit never
invokes them; otherwise the result is exactly the
on-reference-element test applied to the inverse-mapped point with the
same tolerance. -/
theorem InfHex8_contains_point_spec
    (origin p0 p1 p2 p3 p : Pt3) (tol : ℚ) :
    (LibMesh.conservative_p_dist_sq origin p
        < LibMesh.min_distance_sq origin p0 p1 p2 p3 →
      ∀ (invMap : Pt3 → ℚ → Pt3) (onRef : Pt3 → ℚ → Bool),
        LibMesh.contains_point origin p0 p1 p2 p3 invMap onRef p tol = false)
    ∧ (¬ LibMesh.conservative_p_dist_sq origin p
        < LibMesh.min_distance_sq origin p0 p1 p2 p3 →
      ∀ (invMap : Pt3 → ℚ → Pt3) (onRef : Pt3 → ℚ → Bool),
        LibMesh.contains_point origin p0 p1 p2 p3 invMap onRef p tol
          = onRef (invMap p tol) tol) := by
  constructor
  · intro h invMap onRef
    simp [LibMesh.contains_point, h]
  · intro h invMap onRef
    simp [LibMesh.contains_point, h]

/-- Witness for **C9** at concrete inputs: with the origin at 0, base
nodes at distance 1 and a query point at distance 1/10, the early
rejection fires; with a query point at distance 2 the fallback is
consulted. -/
theorem InfHex8_contains_point_spec_witness :
    (LibMesh.contains_point ⟨0,0,0⟩ ⟨1,0,0⟩ ⟨0,1,0⟩ ⟨-1,0,0⟩ ⟨0,-1,0⟩
        (fun q _ => q) (fun _ _ => true) ⟨1/10,0,0⟩ 0 = false)
    ∧ (LibMesh.contains_point ⟨0,0,0⟩ ⟨1,0,0⟩ ⟨0,1,0⟩ ⟨-1,0,0⟩ ⟨0,-1,0⟩
        (fun q _ => q) (fun _ _ => true) ⟨2,0,0⟩ 0 = true) := by
  refine ⟨?_, ?_⟩
  · exact (InfHex8_contains_point_spec ⟨0,0,0⟩ ⟨1,0,0⟩ ⟨0,1,0⟩ ⟨-1,0,0⟩ ⟨0,-1,0⟩
      ⟨1/10,0,0⟩ 0).1
      (by norm_num [LibMesh.conservative_p_dist_sq, LibMesh.min_distance_sq,
        Pt3.sub, Pt3.norm_sq]) _ _
  · exact ((InfHex8_contains_point_spec ⟨0,0,0⟩ ⟨1,0,0⟩ ⟨0,1,0⟩ ⟨-1,0,0⟩ ⟨0,-1,0⟩
      ⟨2,0,0⟩ 0).2
      (by norm_num [LibMesh.conservative_p_dist_sq, LibMesh.min_distance_sq,
        Pt3.sub, Pt3.norm_sq]) _ _).trans rfl

/-! ## The field-transfer driver (src/unnamed/part_000)

The driver is embedded polymorphically over a commutative ring `K`
standing for the machine numbers (`Number`/`Real`), an abstract type
`P` of physical points and an abstract type `R` of reference-space
points.  A mesh element carries its global node numbers and its
precise `contains_point` predicate; everything else the driver needs
from the finite-element library (quadrature data, shape values, the
inverse map) is bundled as abstract operations in `FEOps`, exactly
mirroring how the driver treats `fe_fine` / `fe_coarse` as black
boxes. -/

namespace Driver

/-- A mesh element as the driver sees it: its global node numbers
(`Elem::node(i)`) and its precise containment test
(`Elem::contains_point`). -/
structure Elem (P : Type) where
  nodes : List Nat
  contains : P → Bool

/-- Placeholder element used for out-of-range element lookups (never
reached on the executions the theorems talk about). -/
def dummyElem (P : Type) : Elem P := ⟨[], fun _ => false⟩

/-- The external finite-element capabilities the driver invokes:
`nGP` is `q_point.size()` (the number of quadrature points of the
fixed rule), `qpt fel gp` is `q_point[gp]` after `fe_fine.reinit(fel)`,
`phi fel i gp` is `phi[i][gp]` after that reinit, `jxw fel gp` is
`JxW[gp]`, `invMap cel p` is `fe_coarse.inverse_map(cel, p)` and
`shape cel i r` is `fe_coarse.shape(cel, SECOND, i, r)`. -/
structure FEOps (K P R : Type) where
  nGP : Nat
  qpt : Elem P → Nat → P
  phi : Elem P → Nat → Nat → K
  jxw : Elem P → Nat → K
  invMap : Elem P → P → R
  shape : Elem P → Nat → R → K

variable {K : Type} [CommRing K] {P R : Type}

/-- Modelled from the spec: `Trees::OctTree::find_element` (`tree.h`,
not present under `src/`).  Per spec 4.1, the query descends the tree
and, at the leaves, runs the precise per-element `contains_point`
test against the candidate elements in leaf-local order, returning
the first element that passes, or "not found" if none does.  The
tree descent only prunes candidates, so the observable behaviour is:
the first element of the mesh's element order whose precise test
accepts the point. -/
def find_element (cm : List (Elem P)) (p : P) : Option Nat :=
  match cm with
  | [] => none
  | e :: rest =>
    if e.contains p then some 0
    else (find_element rest p).map (· + 1)

/-- The cached test `coarse_element->contains_point(q)` for a cache
holding element index `cur` (out-of-range caches never occur on real
executions and test negative). -/
def cacheHit (cm : List (Elem P)) (cur : Nat) (p : P) : Bool :=
  match cm.get? cur with
  | some e => e.contains p
  | none => false

/-- The cached point locator step shared by both sweep passes
(part_000 lines 173-187 and 240-254): try the remembered element's
precise containment test first; on a miss fall back to
`octree_coarse.find_element`; if that also fails the `assert
(coarse_element != NULL)` aborts (`none`).  Returns the located
element index and whether a miss (hence an `fe_coarse.reinit`)
occurred. -/
def locate (cm : List (Elem P)) (cur : Nat) (p : P) : Option (Nat × Bool) :=
  if cacheHit cm cur p then some (cur, false)
  else
    match find_element cm p with
    | some j => some (j, true)
    | none => none

/-- Sum of `f i` for `i` running over `0 .. n-1` (a `for` loop
accumulating into a `Number`). -/
def nodeSum (n : Nat) (f : Nat → K) : K := ((List.range n).map f).sum

/-- Fine-mesh solution value at Gauss point `gp` of fine element
`fel` (part_000 lines 161-167):
`Σ_i fine_solution[gn*nv + ivar] * phi[i][gp]`. -/
def fineVal (fe : FEOps K P R) (fsol : List K) (nv ivar : Nat)
    (fel : Elem P) (gp : Nat) : K :=
  nodeSum fel.nodes.length
    (fun i => fsol.getD ((fel.nodes.getD i 0) * nv + ivar) 0 * fe.phi fel i gp)

/-- Coarse-mesh interpolation on element `cel` at reference point `m`
(part_000 lines 195-204 and 263-267):
`Σ_i coarse_solution[gn*nv + ivar] * shape(cel, SECOND, i, m)`.
The source's loop bound `fe_coarse.n_shape_functions()` equals the
element's node count for the second-order Lagrange elements the
driver assumes (the analogous equality for the fine side is asserted
at line 159), so the loop runs over `cel`'s local nodes. -/
def coarseVal (fe : FEOps K P R) (csol : List K) (nv ivar : Nat)
    (cel : Elem P) (m : R) : K :=
  nodeSum cel.nodes.length
    (fun i => csol.getD ((cel.nodes.getD i 0) * nv + ivar) 0 * fe.shape cel i m)

/-- Coarse-mesh interpolation at physical point `p`: inverse-map `p`
into `cel`'s reference frame, then evaluate the shape-function sum
there. -/
def interpAt (fe : FEOps K P R) (csol : List K) (nv ivar : Nat)
    (cel : Elem P) (p : P) : K :=
  coarseVal fe csol nv ivar cel (fe.invMap cel p)

/-- Everything `main` works with after the input files have been
read: the command line, the two meshes, the fine mesh's node
coordinates (`mesh_fine.point(gn)`) and node count, the two solution
vectors with their variable-name lists, the finite-element
operations, and the selected variable index `ivar = atoi(argv[1])`. -/
structure Cfg (K P R : Type) where
  args : List String
  cmesh : List (Elem P)
  fmesh : List (Elem P)
  coord : Nat → P
  nNodes : Nat
  csol : List K
  fsol : List K
  cnames : List String
  fnames : List String
  fe : FEOps K P R
  ivar : Nat

/-- State of the quadrature (error-metric) pass: the cached coarse
element index, the index of the element `fe_coarse` was last
`reinit`-ed for, the running error sum, plus instrumentation: a trace
of the `inverse_map` invocations as
(`fe_coarse` state, element argument, was-this-a-miss) triples, and
the list of coarse elements selected for interpolation, one per Gauss
point processed. -/
structure St1 (K : Type) where
  cache : Nat
  fest : Nat
  acc : K
  trace : List (Nat × Nat × Bool)
  sel : List Nat

/-- One Gauss point of the error-metric pass (part_000 lines
155-208): evaluate the fine solution, locate the coarse element
(aborting if the locator fails), on a miss `reinit` `fe_coarse`,
inverse-map the point, interpolate the coarse solution and
accumulate `JxW[gp]*(coarse_soln - fine_soln)^2`. -/
def gpStep (cfg : Cfg K P R) (fel : Elem P) (gp : Nat) (s : St1 K) :
    Option (St1 K) :=
  match locate cfg.cmesh s.cache (cfg.fe.qpt fel gp) with
  | none => none
  | some (j, miss) =>
    let fest' := if miss then j else s.fest
    let cel := cfg.cmesh.getD j (dummyElem P)
    let cs := interpAt cfg.fe cfg.csol cfg.cnames.length cfg.ivar cel
      (cfg.fe.qpt fel gp)
    let fs := fineVal cfg.fe cfg.fsol cfg.fnames.length cfg.ivar fel gp
    some ⟨j, fest', s.acc + cfg.fe.jxw fel gp * (cs - fs) * (cs - fs),
      s.trace ++ [(fest', j, miss)], s.sel ++ [j]⟩

/-- The Gauss-point loop over a list of Gauss point indices. -/
def gpLoop (cfg : Cfg K P R) (fel : Elem P) :
    List Nat → St1 K → Option (St1 K)
  | [], s => some s
  | gp :: rest, s =>
    match gpStep cfg fel gp s with
    | none => none
    | some s' => gpLoop cfg fel rest s'

/-- The element loop of the error-metric pass (part_000 lines
145-212): for each fine element, `fe_fine.reinit` (implicit in the
per-element `qpt`/`phi`/`jxw` data) and the Gauss-point loop. -/
def pass1 (cfg : Cfg K P R) : List (Elem P) → St1 K → Option (St1 K)
  | [], s => some s
  | fel :: rest, s =>
    match gpLoop cfg fel (List.range cfg.fe.nGP) s with
    | none => none
    | some s' => pass1 cfg rest s'

/-- Initial state of the error-metric pass (part_000 lines 137-141):
`error = 0`, the cache slot holds `mesh_coarse.elem(0)` and
`fe_coarse` has just been `reinit`-ed for it. -/
def init1 : St1 K := ⟨0, 0, 0, [], []⟩

/-- State of the nodal-difference pass: cache and `fe_coarse` state
as in `St1`, the `already_done` marker vector, the
`diff_solution` vector, plus the same instrumentation (trace of
`inverse_map` invocations, selected element per processed node) and
the list of global node numbers processed, in order. -/
structure St2 (K : Type) where
  cache : Nat
  fest : Nat
  done : List Bool
  diff : List K
  trace : List (Nat × Nat × Bool)
  sel : List Nat
  procd : List Nat

/-- The inner variable loop (part_000 lines 258-270): for each
variable `c` in the given list, interpolate the coarse solution at
reference point `m` and store `coarse_soln - fine_solution[gn*nv+c]`
into `diff_solution[gn*nv+c]`. -/
def diffWrite (fe : FEOps K P R) (csol fsol : List K) (nv : Nat)
    (cel : Elem P) (m : R) (gn : Nat) : List Nat → List K → List K
  | [], d => d
  | c :: rest, d =>
    diffWrite fe csol fsol nv cel m gn rest
      (d.set (gn * nv + c) (coarseVal fe csol nv c cel m - fsol.getD (gn * nv + c) 0))

/-- One node visit of the nodal-difference pass (part_000 lines
230-271): skip if `already_done[gn]`, otherwise mark it, locate the
node's coordinate in the coarse mesh (aborting on locator failure,
`reinit`-ing `fe_coarse` on a miss), inverse-map once and write all
variables' differences. -/
def nodeStep (cfg : Cfg K P R) (gn : Nat) (s : St2 K) : Option (St2 K) :=
  if s.done.getD gn false then some s
  else
    match locate cfg.cmesh s.cache (cfg.coord gn) with
    | none => none
    | some (j, miss) =>
      let fest' := if miss then j else s.fest
      let cel := cfg.cmesh.getD j (dummyElem P)
      let m := cfg.fe.invMap cel (cfg.coord gn)
      let nv := cfg.fnames.length
      some ⟨j, fest', s.done.set gn true,
        diffWrite cfg.fe cfg.csol cfg.fsol nv cel m gn (List.range nv) s.diff,
        s.trace ++ [(fest', j, miss)], s.sel ++ [j], s.procd ++ [gn]⟩

/-- The node loop of the nodal-difference pass, over a list of
global node numbers. -/
def nodeLoop (cfg : Cfg K P R) : List Nat → St2 K → Option (St2 K)
  | [], s => some s
  | gn :: rest, s =>
    match nodeStep cfg gn s with
    | none => none
    | some s' => nodeLoop cfg rest s'

/-- The sequence of global node numbers visited by the double loop
`for e in fine elements, for n in elem(e)'s nodes` (part_000 lines
229-232). -/
def fineNodeSeq (fmesh : List (Elem P)) : List Nat :=
  (fmesh.map Elem.nodes).flatten

/-- Initial state of the nodal-difference pass (part_000 lines
84, 225-227): `already_done` all false (size `n_nodes`),
`diff_solution` zero-initialised with `fine_solution.size()` entries,
the cache slot reset to `mesh_coarse.elem(0)` — and `fe_coarse` left
in whatever state `fest0` the previous pass ended with (the source
performs no `reinit` here). -/
def init2 (cfg : Cfg K P R) (fest0 : Nat) : St2 K :=
  ⟨0, fest0, List.replicate cfg.nNodes false,
    List.replicate cfg.fsol.length 0, [], [], []⟩

/-- The whole nodal-difference pass. -/
def pass2 (cfg : Cfg K P R) (fest0 : Nat) : Option (St2 K) :=
  nodeLoop cfg (fineNodeSeq cfg.fmesh) (init2 cfg fest0)

/-- The ways the run can abort. -/
inductive DriverErr where
  | usage (msg : String)
  | varMismatch
  | locateFail
deriving DecidableEq, Repr

/-- The usage synopsis printed to `std::cerr` (part_000 lines 32-34). -/
def usageMsg (prog : String) : String :=
  "Usage: " ++ prog ++ " ivar m0.mesh m1.mesh s0.soln s1.soln"

/-- What a completed run produces: the accumulated error sum (the
reported metric is its square root), the nodal difference field with
its variable names (`diff_var_names`, a copy of the fine field's
names, part_000 line 85), and the two passes' instrumentation. -/
structure Output (K : Type) where
  errorSq : K
  diff : List K
  diffNames : List String
  trace1 : List (Nat × Nat × Bool)
  trace2 : List (Nat × Nat × Bool)
  sel1 : List Nat
  sel2 : List Nat
  procd : List Nat
deriving DecidableEq

/-- The driver `main` (part_000 lines 20-284): check the argument
count (printing the usage synopsis and aborting when fewer than 6
arguments are given), read the meshes and solutions (their contents
are the `Cfg` fields), check `fine_var_names == coarse_var_names`
(fatal on mismatch, before the octree is built and any numerical
work), run the error-metric pass and then the nodal-difference pass
with the shared `fe_coarse` state carried across, aborting if either
pass's locator fails. -/
def mainModel (cfg : Cfg K P R) : Except DriverErr (Output K) :=
  if cfg.args.length < 6 then
    .error (.usage (usageMsg (cfg.args.getD 0 "")))
  else if cfg.fnames = cfg.cnames then
    match pass1 cfg cfg.fmesh init1 with
    | none => .error .locateFail
    | some s1 =>
      match pass2 cfg s1.fest with
      | none => .error .locateFail
      | some s2 =>
        .ok ⟨s1.acc, s2.diff, cfg.fnames, s1.trace, s2.trace,
          s1.sel, s2.sel, s2.procd⟩
  else .error .varMismatch

/-! ### Semantic predicates and reference formulas

These definitions are the vocabulary of the theorems: how many
elements' precise tests accept a point, and the closed-form
(cache-free) value of each pass's result. -/

/-- The number of coarse elements whose precise containment test
accepts `p`. -/
def contCount (cm : List (Elem P)) (p : P) : Nat :=
  cm.countP (fun e => e.contains p)

/-- The element index a direct octree query would select for `p`
(only meaningful when `find_element` succeeds). -/
def selOf (cm : List (Elem P)) (p : P) : Nat :=
  (find_element cm p).getD 0

/-- The element a direct octree query would select for `p`. -/
def locElem (cm : List (Elem P)) (p : P) : Elem P :=
  cm.getD (selOf cm p) (dummyElem P)

/-- The closed-form error contribution of Gauss point `gp` of fine
element `fel`: `JxW[gp] * (coarse_soln - fine_soln)^2` with the
coarse solution interpolated on the element a direct `find_element`
query selects. -/
def gpContrib (cfg : Cfg K P R) (fel : Elem P) (gp : Nat) : K :=
  let p := cfg.fe.qpt fel gp
  let cs := interpAt cfg.fe cfg.csol cfg.cnames.length cfg.ivar
    (locElem cfg.cmesh p) p
  let fs := fineVal cfg.fe cfg.fsol cfg.fnames.length cfg.ivar fel gp
  cfg.fe.jxw fel gp * (cs - fs) * (cs - fs)

/-- The closed-form error sum over a list of fine elements. -/
def errorSqAux (cfg : Cfg K P R) (fels : List (Elem P)) : K :=
  (fels.map (fun fel => ((List.range cfg.fe.nGP).map (gpContrib cfg fel)).sum)).sum

/-- The closed-form error sum over the whole fine mesh: the sum, over
every fine-mesh element and every quadrature point, of
`JxW * (coarse_soln - fine_soln)^2`. -/
def errorSqFormula (cfg : Cfg K P R) : K := errorSqAux cfg cfg.fmesh

/-- The closed-form nodal difference for node `gn` and variable `v`:
`coarse_value - fine_value`, the coarse value interpolated at the
node's coordinate on the element a direct `find_element` query
selects. -/
def nodeDiffFormula (cfg : Cfg K P R) (gn v : Nat) : K :=
  interpAt cfg.fe cfg.csol cfg.fnames.length v
    (locElem cfg.cmesh (cfg.coord gn)) (cfg.coord gn)
    - cfg.fsol.getD (gn * cfg.fnames.length + v) 0

/-- The elements a direct `find_element` query would select for the
Gauss points of the error-metric pass, in sweep order. -/
def sels1 (cfg : Cfg K P R) (fels : List (Elem P)) : List Nat :=
  (fels.map (fun fel =>
    (List.range cfg.fe.nGP).map (fun gp => selOf cfg.cmesh (cfg.fe.qpt fel gp)))).flatten

/-! ### Concrete instances used by the witnesses and counterexamples

All of them live at `K := ℤ`, `P := ℕ`, `R := ℕ`, where every
computation kernel-reduces. -/

/-- A fine element with the given nodes that contains nothing (the
fine mesh's own containment tests are never consulted). -/
def fElem (ns : List Nat) : Elem Nat := ⟨ns, fun _ => false⟩

/-- A trivial finite-element oracle: one Gauss point per element,
placed at physical point `q`; all basis values 1, weights 1, and the
identity inverse map. -/
def simpleFE (K : Type) [CommRing K] (q : Nat) : FEOps K Nat Nat where
  nGP := 1
  qpt := fun _ _ => q
  phi := fun _ _ _ => 1
  jxw := fun _ _ => 1
  invMap := fun _ p => p
  shape := fun _ _ _ => 1

/-- Counterexample configuration for the cache-vs-octree claim: two
coarse elements whose containment tests overlap at point 7 (a shared
face), element 0 accepting points 5 and 7, element 1 accepting points
6 and 7.  The single fine element has two Gauss points, at 6 and
at 7: the first query misses into element 1; the second query is a
cache hit on element 1 although a direct octree query returns
element 0. -/
def cexCfgC1 : Cfg ℤ Nat Nat where
  args := ["prog", "0", "m0", "m1", "s0", "s1"]
  cmesh := [⟨[0], fun p => p == 5 || p == 7⟩, ⟨[0], fun p => p == 6 || p == 7⟩]
  fmesh := [fElem [0]]
  coord := fun _ => 0
  nNodes := 1
  csol := [0]
  fsol := [0]
  cnames := ["u"]
  fnames := ["u"]
  fe := { simpleFE ℤ 0 with nGP := 2, qpt := fun _ gp => if gp == 0 then 6 else 7 }
  ivar := 0

/-- Witness configuration for the abort-on-double-miss claim: the
single coarse element accepts only point 1, while the fine element's
Gauss point sits at 3, so the cached test and the octree query both
fail. -/
def cexCfgC2 : Cfg ℤ Nat Nat where
  args := ["prog", "0", "m0", "m1", "s0", "s1"]
  cmesh := [⟨[0], fun p => p == 1⟩]
  fmesh := [fElem [0]]
  coord := fun _ => 1
  nNodes := 1
  csol := [0]
  fsol := [0]
  cnames := ["u"]
  fnames := ["u"]
  fe := simpleFE ℤ 3
  ivar := 0

/-- Counterexample configuration for the reinitialisation claim: two
coarse elements, element 0 accepting point 1 and element 1 accepting
point 2.  The error-metric pass queries point 2 (a miss leaving the
cache and `fe_coarse` on element 1); the nodal pass then queries node
coordinate 1, which hits the freshly reset cache slot (element 0)
while `fe_coarse` is still initialised for element 1. -/
def cexCfgC5 : Cfg ℤ Nat Nat where
  args := ["prog", "0", "m0", "m1", "s0", "s1"]
  cmesh := [⟨[0], fun p => p == 1⟩, ⟨[0], fun p => p == 2⟩]
  fmesh := [fElem [0]]
  coord := fun _ => 1
  nNodes := 1
  csol := [0]
  fsol := [0]
  cnames := ["u"]
  fnames := ["u"]
  fe := simpleFE ℤ 2
  ivar := 0

/-- Witness configuration for the schema-mismatch claim: enough
arguments, but the two variable-name lists differ. -/
def cexCfgC6 : Cfg ℤ Nat Nat where
  args := ["prog", "0", "m0", "m1", "s0", "s1"]
  cmesh := [⟨[0], fun _ => true⟩]
  fmesh := [fElem [0]]
  coord := fun _ => 0
  nNodes := 1
  csol := [0]
  fsol := [0]
  cnames := ["v"]
  fnames := ["u"]
  fe := simpleFE ℤ 0
  ivar := 0

/-- Witness configuration for the usage-error claim: a single
command-line argument. -/
def cexCfgC8 : Cfg ℤ Nat Nat where
  args := ["prog"]
  cmesh := [⟨[0], fun _ => true⟩]
  fmesh := [fElem [0]]
  coord := fun _ => 0
  nNodes := 1
  csol := [0]
  fsol := [0]
  cnames := ["u"]
  fnames := ["u"]
  fe := simpleFE ℤ 0
  ivar := 0

/-- Witness configuration for the quadrature-formula and
nodal-difference claims: one all-accepting coarse element carrying
solution value 3, a fine mesh of two elements sharing node 1, and
fine solution values 5, 7, 11. -/
def exCfgC3 : Cfg ℚ Nat Nat where
  args := ["prog", "0", "m0", "m1", "s0", "s1"]
  cmesh := [⟨[0, 1, 2], fun _ => true⟩]
  fmesh := [fElem [0, 1], fElem [1, 2]]
  coord := fun gn => gn
  nNodes := 3
  csol := [3, 3, 3]
  fsol := [5, 7, 11]
  cnames := ["u"]
  fnames := ["u"]
  fe := simpleFE ℚ 0
  ivar := 0

/-- Witness configuration for the identical-meshes claim: a single
self-contained mesh used as both coarse and fine mesh, with matching
interpolation data (`phi = shape ∘ invMap` and nodal exactness hold
by construction). -/
def exCfgC7 : Cfg ℤ Nat Nat where
  args := ["prog", "0", "m0", "m1", "s0", "s1"]
  cmesh := [⟨[0], fun _ => true⟩]
  fmesh := [⟨[0], fun _ => true⟩]
  coord := fun gn => gn
  nNodes := 1
  csol := [3]
  fsol := [3]
  cnames := ["u"]
  fnames := ["u"]
  fe := simpleFE ℤ 0
  ivar := 0

end Driver

/-! ## Helper lemmas about the locator -/

namespace Driver

variable {K : Type} [CommRing K] {P R : Type}

theorem contCount_pos_of_cacheHit {cm : List (Elem P)} {i : Nat} {p : P}
    (h : cacheHit cm i p = true) : 0 < contCount cm p := by
  unfold cacheHit at h
  rcases hg : cm.get? i with _ | e
  · rw [hg] at h; exact absurd h (by simp)
  · rw [hg] at h
    exact List.countP_pos_iff.mpr ⟨e, List.get?_mem hg, h⟩

theorem find_element_contains {cm : List (Elem P)} {p : P} {j : Nat}
    (h : find_element cm p = some j) : cacheHit cm j p = true := by
  induction cm generalizing j with
  | nil => simp [find_element] at h
  | cons e rest ih =>
    rw [find_element] at h
    cases he : e.contains p with
    | true =>
      rw [if_pos he] at h
      injection h with h
      subst h
      simp [cacheHit, he]
    | false =>
      rw [if_neg (by simp [he])] at h
      rcases Option.map_eq_some'.mp h with ⟨k, hk, hj⟩
      subst hj
      simpa [cacheHit] using ih hk

theorem find_element_isSome_of_pos {cm : List (Elem P)} {p : P}
    (h : 0 < contCount cm p) : (find_element cm p).isSome := by
  induction cm with
  | nil => simp [contCount] at h
  | cons e rest ih =>
    cases he : e.contains p with
    | true => simp [find_element, he]
    | false =>
      simp only [contCount, List.countP_cons, he] at h
      rw [find_element, if_neg (by simp [he])]
      rcases Option.isSome_iff_exists.mp (ih (by simpa [contCount] using h)) with ⟨k, hk⟩
      simp [hk]

theorem find_element_eq_of_unique {cm : List (Elem P)} {p : P} {cur : Nat}
    (hu : contCount cm p ≤ 1) (hc : cacheHit cm cur p = true) :
    find_element cm p = some cur := by
  induction cm generalizing cur with
  | nil => simp [cacheHit] at hc
  | cons e rest ih =>
    cases he : e.contains p with
    | true =>
      have hcur : cur = 0 := by
        cases cur with
        | zero => rfl
        | succ k =>
          have hk : cacheHit rest k p = true := by simpa [cacheHit] using hc
          have hpos : 0 < contCount rest p := contCount_pos_of_cacheHit hk
          rw [contCount, List.countP_cons] at hu
          simp only [he, if_true] at hu
          rw [contCount] at hpos
          omega
      subst hcur
      rw [find_element, if_pos he]
    | false =>
      cases cur with
      | zero => simp [cacheHit, he] at hc
      | succ k =>
        have hk : cacheHit rest k p = true := by simpa [cacheHit] using hc
        have hu' : contCount rest p ≤ 1 := by
          rw [contCount, List.countP_cons] at hu
          simp only [he, if_false] at hu
          rw [contCount]
          omega
        rw [find_element, if_neg (by simp [he]), ih hu' hk]
        rfl

theorem locate_some_char {cm : List (Elem P)} {cur : Nat} {p : P} {j : Nat} {m : Bool}
    (h : locate cm cur p = some (j, m)) :
    (m = false ∧ j = cur ∧ cacheHit cm cur p = true)
    ∨ (m = true ∧ cacheHit cm cur p = false ∧ find_element cm p = some j) := by
  unfold locate at h
  cases hh : cacheHit cm cur p with
  | true =>
    rw [if_pos hh] at h
    injection h with h
    injection h with h1 h2
    exact Or.inl ⟨h2.symm, h1.symm, rfl⟩
  | false =>
    rw [if_neg (by simp [hh])] at h
    rcases hf : find_element cm p with _ | k
    · rw [hf] at h; exact absurd h (by simp)
    · rw [hf] at h
      injection h with h
      injection h with h1 h2
      subst h1
      exact Or.inr ⟨h2.symm, rfl, rfl⟩

theorem locate_isSome {cm : List (Elem P)} (cur : Nat) {p : P}
    (h : 0 < contCount cm p) : ∃ j m, locate cm cur p = some (j, m) := by
  unfold locate
  cases hh : cacheHit cm cur p with
  | true => exact ⟨cur, false, by simp⟩
  | false =>
    rcases Option.isSome_iff_exists.mp (find_element_isSome_of_pos h) with ⟨k, hk⟩
    exact ⟨k, true, by simp [hk]⟩

theorem locate_none_iff {cm : List (Elem P)} {cur : Nat} {p : P} :
    locate cm cur p = none
    ↔ (cacheHit cm cur p = false ∧ find_element cm p = none) := by
  unfold locate
  cases hh : cacheHit cm cur p with
  | true => simp [hh]
  | false => rcases hf : find_element cm p with _ | k <;> simp [hh, hf]

theorem locate_sel {cm : List (Elem P)} {cur : Nat} {p : P} {j : Nat} {m : Bool}
    (hu : contCount cm p ≤ 1) (h : locate cm cur p = some (j, m)) :
    find_element cm p = some j := by
  rcases locate_some_char h with ⟨_, rfl, hh⟩ | ⟨_, _, hf⟩
  · exact find_element_eq_of_unique hu hh
  · exact hf

theorem locate_selOf {cm : List (Elem P)} {cur : Nat} {p : P} {j : Nat} {m : Bool}
    (hu : contCount cm p ≤ 1) (h : locate cm cur p = some (j, m)) :
    j = selOf cm p := by
  rw [selOf, locate_sel hu h]
  rfl

theorem locate_contains {cm : List (Elem P)} {cur : Nat} {p : P} {j : Nat} {m : Bool}
    (h : locate cm cur p = some (j, m)) : cacheHit cm j p = true := by
  rcases locate_some_char h with ⟨_, rfl, hh⟩ | ⟨_, _, hf⟩
  · exact hh
  · exact find_element_contains hf

theorem locate_hit_eq {cm : List (Elem P)} {cur : Nat} {p : P} {j : Nat}
    (h : locate cm cur p = some (j, false)) : j = cur := by
  rcases locate_some_char h with ⟨_, rfl, _⟩ | ⟨hm, _, _⟩
  · rfl
  · exact absurd hm (by simp)

/-! ### The error-metric pass: success, accumulator and selection -/

theorem gpStep_char {cfg : Cfg K P R} {fel : Elem P} {gp : Nat} (s : St1 K)
    (hu : contCount cfg.cmesh (cfg.fe.qpt fel gp) ≤ 1)
    (hex : 0 < contCount cfg.cmesh (cfg.fe.qpt fel gp)) :
    ∃ s', gpStep cfg fel gp s = some s'
      ∧ s'.acc = s.acc + gpContrib cfg fel gp
      ∧ s'.sel = s.sel ++ [selOf cfg.cmesh (cfg.fe.qpt fel gp)] := by
  rcases locate_isSome s.cache hex with ⟨j, m, hl⟩
  have hj := locate_selOf hu hl
  subst hj
  refine ⟨St1.mk (selOf cfg.cmesh (cfg.fe.qpt fel gp))
      (if m then selOf cfg.cmesh (cfg.fe.qpt fel gp) else s.fest)
      (s.acc + gpContrib cfg fel gp)
      (s.trace ++ [((if m then selOf cfg.cmesh (cfg.fe.qpt fel gp) else s.fest),
        selOf cfg.cmesh (cfg.fe.qpt fel gp), m)])
      (s.sel ++ [selOf cfg.cmesh (cfg.fe.qpt fel gp)]), ?_, rfl, rfl⟩
  unfold gpStep
  rw [hl]
  simp [gpContrib, locElem]

theorem gpLoop_char {cfg : Cfg K P R} {fel : Elem P} (gps : List Nat) (s : St1 K)
    (h : ∀ gp ∈ gps, contCount cfg.cmesh (cfg.fe.qpt fel gp) ≤ 1
      ∧ 0 < contCount cfg.cmesh (cfg.fe.qpt fel gp)) :
    ∃ s', gpLoop cfg fel gps s = some s'
      ∧ s'.acc = s.acc + ((gps.map (gpContrib cfg fel)).sum)
      ∧ s'.sel = s.sel ++ gps.map (fun gp => selOf cfg.cmesh (cfg.fe.qpt fel gp)) := by
  induction gps generalizing s with
  | nil => exact ⟨s, rfl, by simp, by simp⟩
  | cons gp rest ih =>
    obtain ⟨hu, hex⟩ := h gp (List.mem_cons_self gp rest)
    obtain ⟨s1, h1, ha1, hs1⟩ := gpStep_char s hu hex
    obtain ⟨s2, h2, ha2, hs2⟩ := ih s1 (fun g hg => h g (List.mem_cons_of_mem _ hg))
    refine ⟨s2, ?_, ?_, ?_⟩
    · rw [gpLoop, h1]
      exact h2
    · rw [ha2, ha1, List.map_cons, List.sum_cons, add_assoc]
    · rw [hs2, hs1, List.map_cons]
      simp

theorem pass1_char {cfg : Cfg K P R} (fels : List (Elem P)) (s : St1 K)
    (h : ∀ fel ∈ fels, ∀ gp ∈ List.range cfg.fe.nGP,
      contCount cfg.cmesh (cfg.fe.qpt fel gp) ≤ 1
      ∧ 0 < contCount cfg.cmesh (cfg.fe.qpt fel gp)) :
    ∃ s', pass1 cfg fels s = some s'
      ∧ s'.acc = s.acc + errorSqAux cfg fels
      ∧ s'.sel = s.sel ++ sels1 cfg fels := by
  induction fels generalizing s with
  | nil => exact ⟨s, rfl, by simp [errorSqAux], by simp [sels1]⟩
  | cons fel rest ih =>
    obtain ⟨s1, h1, ha1, hs1⟩ :=
      gpLoop_char (List.range cfg.fe.nGP) s (h fel (List.mem_cons_self fel rest))
    obtain ⟨s2, h2, ha2, hs2⟩ := ih s1 (fun g hg => h g (List.mem_cons_of_mem _ hg))
    refine ⟨s2, ?_, ?_, ?_⟩
    · rw [pass1, h1]
      exact h2
    · rw [ha2, ha1]
      simp only [errorSqAux, List.map_cons, List.sum_cons]
      rw [add_assoc]
    · rw [hs2, hs1]
      simp only [sels1, List.map_cons, List.flatten_cons]
      rw [List.append_assoc]

/-! ### Alignment of the cache slot and the `fe_coarse` state -/

theorem gpStep_align {cfg : Cfg K P R} {fel : Elem P} {gp : Nat} {s s' : St1 K}
    (hc : s.cache = s.fest) (ht : ∀ t ∈ s.trace, t.1 = t.2.1)
    (h : gpStep cfg fel gp s = some s') :
    s'.cache = s'.fest ∧ ∀ t ∈ s'.trace, t.1 = t.2.1 := by
  unfold gpStep at h
  rcases hl : locate cfg.cmesh s.cache (cfg.fe.qpt fel gp) with _ | ⟨j, m⟩
  · rw [hl] at h
    exact absurd h (by simp)
  · rw [hl] at h
    cases h
    cases m with
    | true =>
      refine ⟨rfl, ?_⟩
      intro t htm
      rcases List.mem_append.mp htm with hold | hnew
      · exact ht t hold
      · simp only [List.mem_singleton] at hnew
        subst hnew
        rfl
    | false =>
      have hj : j = s.cache := locate_hit_eq hl
      subst hj
      refine ⟨hc, ?_⟩
      intro t htm
      rcases List.mem_append.mp htm with hold | hnew
      · exact ht t hold
      · simp only [List.mem_singleton] at hnew
        subst hnew
        exact hc.symm

theorem gpLoop_align {cfg : Cfg K P R} {fel : Elem P} (gps : List Nat) (s : St1 K)
    (hc : s.cache = s.fest) (ht : ∀ t ∈ s.trace, t.1 = t.2.1) :
    ∀ s', gpLoop cfg fel gps s = some s' →
      s'.cache = s'.fest ∧ ∀ t ∈ s'.trace, t.1 = t.2.1 := by
  induction gps generalizing s with
  | nil =>
    intro s' h
    cases h
    exact ⟨hc, ht⟩
  | cons gp rest ih =>
    intro s' h
    rw [gpLoop] at h
    rcases hs : gpStep cfg fel gp s with _ | s1
    · rw [hs] at h
      exact absurd h (by simp)
    · rw [hs] at h
      obtain ⟨hc1, ht1⟩ := gpStep_align hc ht hs
      exact ih s1 hc1 ht1 s' h

theorem pass1_align {cfg : Cfg K P R} (fels : List (Elem P)) (s : St1 K)
    (hc : s.cache = s.fest) (ht : ∀ t ∈ s.trace, t.1 = t.2.1) :
    ∀ s', pass1 cfg fels s = some s' →
      s'.cache = s'.fest ∧ ∀ t ∈ s'.trace, t.1 = t.2.1 := by
  induction fels generalizing s with
  | nil =>
    intro s' h
    cases h
    exact ⟨hc, ht⟩
  | cons fel rest ih =>
    intro s' h
    rw [pass1] at h
    rcases hs : gpLoop cfg fel (List.range cfg.fe.nGP) s with _ | s1
    · rw [hs] at h
      exact absurd h (by simp)
    · rw [hs] at h
      obtain ⟨hc1, ht1⟩ := gpLoop_align (List.range cfg.fe.nGP) s hc ht s1 hs
      exact ih s1 hc1 ht1 s' h

theorem nodeStep_missAlign {cfg : Cfg K P R} {gn : Nat} {s s' : St2 K}
    (ht : ∀ t ∈ s.trace, t.2.2 = true → t.1 = t.2.1)
    (h : nodeStep cfg gn s = some s') :
    ∀ t ∈ s'.trace, t.2.2 = true → t.1 = t.2.1 := by
  unfold nodeStep at h
  by_cases hd : s.done.getD gn false = true
  · rw [if_pos hd] at h
    cases h
    exact ht
  · rw [if_neg hd] at h
    rcases hl : locate cfg.cmesh s.cache (cfg.coord gn) with _ | ⟨j, m⟩
    · rw [hl] at h
      exact absurd h (by simp)
    · rw [hl] at h
      cases h
      intro t htm hmiss
      rcases List.mem_append.mp htm with hold | hnew
      · exact ht t hold hmiss
      · simp only [List.mem_singleton] at hnew
        subst hnew
        simp only at hmiss
        cases m with
        | true => rfl
        | false => exact absurd hmiss (by simp)

theorem nodeLoop_missAlign {cfg : Cfg K P R} (gns : List Nat) (s : St2 K)
    (ht : ∀ t ∈ s.trace, t.2.2 = true → t.1 = t.2.1) :
    ∀ s', nodeLoop cfg gns s = some s' →
      ∀ t ∈ s'.trace, t.2.2 = true → t.1 = t.2.1 := by
  induction gns generalizing s with
  | nil =>
    intro s' h
    cases h
    exact ht
  | cons gn rest ih =>
    intro s' h
    rw [nodeLoop] at h
    rcases hs : nodeStep cfg gn s with _ | s1
    · rw [hs] at h
      exact absurd h (by simp)
    · rw [hs] at h
      exact ih s1 (nodeStep_missAlign ht hs) s' h

/-! ### Index arithmetic for the interleaved field layout -/

theorem varIdx_inj {g gn v c nv : Nat} (hv : v < nv) (hc : c < nv)
    (h : g * nv + v = gn * nv + c) : g = gn ∧ v = c := by
  have hg : g = gn := by
    have h1 : (nv * g + v) / nv = g + v / nv := Nat.mul_add_div (by omega) g v
    have h2 : (nv * gn + c) / nv = gn + c / nv := Nat.mul_add_div (by omega) gn c
    have hv0 : v / nv = 0 := Nat.div_eq_of_lt hv
    have hc0 : c / nv = 0 := Nat.div_eq_of_lt hc
    have hh : nv * g + v = nv * gn + c := by
      rw [Nat.mul_comm nv g, Nat.mul_comm nv gn]
      exact h
    rw [hh] at h1
    rw [h1, hv0, hc0] at h2
    omega
  subst hg
  exact ⟨rfl, by omega⟩

/-! ### List update helpers -/

theorem getD_set_ne {α : Type} {l : List α} {i k : Nat} {x d : α} (h : i ≠ k) :
    (l.set i x).getD k d = l.getD k d := by
  simp [List.getD_eq_getElem?_getD, List.getElem?_set_ne h]

theorem getD_set_self {α : Type} {l : List α} {i : Nat} {x d : α} (h : i < l.length) :
    (l.set i x).getD i d = x := by
  simp [List.getD_eq_getElem?_getD, List.getElem?_set_eq_of_lt x h]

/-! ### The inner variable loop of the nodal pass -/

theorem diffWrite_length {fe : FEOps K P R} {csol fsol : List K} {nv : Nat}
    {cel : Elem P} {m : R} {gn : Nat} (cs : List Nat) (d : List K) :
    (diffWrite fe csol fsol nv cel m gn cs d).length = d.length := by
  induction cs generalizing d with
  | nil => rfl
  | cons c rest ih => rw [diffWrite, ih, List.length_set]

theorem diffWrite_getD_notin {fe : FEOps K P R} {csol fsol : List K} {nv : Nat}
    {cel : Elem P} {m : R} {gn : Nat} {k : Nat} (cs : List Nat) (d : List K)
    (h : ∀ c ∈ cs, k ≠ gn * nv + c) :
    (diffWrite fe csol fsol nv cel m gn cs d).getD k 0 = d.getD k 0 := by
  induction cs generalizing d with
  | nil => rfl
  | cons c rest ih =>
    rw [diffWrite, ih _ (fun c' hc' => h c' (List.mem_cons_of_mem _ hc')),
      getD_set_ne (fun he => h c (List.mem_cons_self c rest) he.symm)]

theorem diffWrite_getD_written {fe : FEOps K P R} {csol fsol : List K} {nv : Nat}
    {cel : Elem P} {m : R} {gn : Nat} {c : Nat} (cs : List Nat) (d : List K)
    (hnd : cs.Nodup) (hc : c ∈ cs)
    (hlen : gn * nv + c < d.length) :
    (diffWrite fe csol fsol nv cel m gn cs d).getD (gn * nv + c) 0
      = coarseVal fe csol nv c cel m - fsol.getD (gn * nv + c) 0 := by
  induction cs generalizing d with
  | nil => exact absurd hc (by simp)
  | cons c0 rest ih =>
    rcases List.mem_cons.mp hc with rfl | hcr
    · rw [diffWrite, diffWrite_getD_notin rest _ (fun c' hc' he => by
        exact (List.nodup_cons.mp hnd).1 ((Nat.add_left_cancel he) ▸ hc'))]
      exact getD_set_self hlen
    · rw [diffWrite]
      refine ih _ (List.nodup_cons.mp hnd).2 hcr ?_
      rw [List.length_set]
      exact hlen

/-! ### The nodal-difference pass: one-step characterisations -/

theorem nodeStep_skip {cfg : Cfg K P R} {gn : Nat} {s : St2 K}
    (hd : s.done.getD gn false = true) : nodeStep cfg gn s = some s := by
  unfold nodeStep
  rw [if_pos hd]

theorem nodeStep_proc {cfg : Cfg K P R} {gn : Nat} {s : St2 K}
    (hd : ¬ s.done.getD gn false = true)
    (hu : contCount cfg.cmesh (cfg.coord gn) ≤ 1)
    (hex : 0 < contCount cfg.cmesh (cfg.coord gn)) :
    ∃ m : Bool, nodeStep cfg gn s = some
      ⟨selOf cfg.cmesh (cfg.coord gn),
        (if m then selOf cfg.cmesh (cfg.coord gn) else s.fest),
        s.done.set gn true,
        diffWrite cfg.fe cfg.csol cfg.fsol cfg.fnames.length
          (locElem cfg.cmesh (cfg.coord gn))
          (cfg.fe.invMap (locElem cfg.cmesh (cfg.coord gn)) (cfg.coord gn))
          gn (List.range cfg.fnames.length) s.diff,
        s.trace ++ [((if m then selOf cfg.cmesh (cfg.coord gn) else s.fest),
          selOf cfg.cmesh (cfg.coord gn), m)],
        s.sel ++ [selOf cfg.cmesh (cfg.coord gn)],
        s.procd ++ [gn]⟩ := by
  rcases locate_isSome s.cache hex with ⟨j, m, hl⟩
  have hj := locate_selOf hu hl
  subst hj
  refine ⟨m, ?_⟩
  unfold nodeStep
  rw [if_neg hd, hl]
  rfl

/-! ### The nodal-difference pass: the full sweep -/

theorem nodeLoop_master {cfg : Cfg K P R} (gns : List Nat) (s : St2 K)
    (hq : ∀ gn ∈ gns, contCount cfg.cmesh (cfg.coord gn) ≤ 1
      ∧ 0 < contCount cfg.cmesh (cfg.coord gn) ∧ gn < cfg.nNodes)
    (hdl : s.done.length = cfg.nNodes)
    (hdf : s.diff.length = cfg.nNodes * cfg.fnames.length)
    (hmark : ∀ g, s.done.getD g false = true ↔ g ∈ s.procd)
    (hnd : s.procd.Nodup)
    (hsel : s.sel = s.procd.map (fun g => selOf cfg.cmesh (cfg.coord g)))
    (hdiff : ∀ g ∈ s.procd, ∀ v < cfg.fnames.length,
      s.diff.getD (g * cfg.fnames.length + v) 0 = nodeDiffFormula cfg g v) :
    ∃ s', nodeLoop cfg gns s = some s'
      ∧ s'.done.length = cfg.nNodes
      ∧ s'.diff.length = cfg.nNodes * cfg.fnames.length
      ∧ (∀ g, s'.done.getD g false = true ↔ g ∈ s'.procd)
      ∧ s'.procd.Nodup
      ∧ s'.sel = s'.procd.map (fun g => selOf cfg.cmesh (cfg.coord g))
      ∧ (∀ g ∈ s'.procd, ∀ v < cfg.fnames.length,
          s'.diff.getD (g * cfg.fnames.length + v) 0 = nodeDiffFormula cfg g v)
      ∧ (∀ g, g ∈ s'.procd ↔ g ∈ s.procd ∨ g ∈ gns) := by
  induction gns generalizing s with
  | nil =>
    exact ⟨s, rfl, hdl, hdf, hmark, hnd, hsel, hdiff, by simp⟩
  | cons gn rest ih =>
    obtain ⟨hu, hex, hlt⟩ := hq gn (List.mem_cons_self gn rest)
    by_cases hd : s.done.getD gn false = true
    · obtain ⟨s', he, c1, c2, c3, c4, c5, c6, c7⟩ :=
        ih s (fun g hg => hq g (List.mem_cons_of_mem _ hg)) hdl hdf hmark hnd hsel hdiff
      refine ⟨s', ?_, c1, c2, c3, c4, c5, c6, ?_⟩
      · rw [nodeLoop, nodeStep_skip hd]
        exact he
      · intro g
        rw [c7 g]
        have hgn : gn ∈ s.procd := (hmark gn).mp hd
        constructor
        · rintro (h | h)
          · exact Or.inl h
          · exact Or.inr (List.mem_cons_of_mem _ h)
        · rintro (h | h)
          · exact Or.inl h
          · rcases List.mem_cons.mp h with rfl | h
            · exact Or.inl hgn
            · exact Or.inr h
    · obtain ⟨m, hstep⟩ := nodeStep_proc hd hu hex
      have hgnot : gn ∉ s.procd := fun hmem => hd ((hmark gn).mpr hmem)
      have hdl1 : (s.done.set gn true).length = cfg.nNodes := by
        rw [List.length_set]; exact hdl
      have hdf1 : (diffWrite cfg.fe cfg.csol cfg.fsol cfg.fnames.length
          (locElem cfg.cmesh (cfg.coord gn))
          (cfg.fe.invMap (locElem cfg.cmesh (cfg.coord gn)) (cfg.coord gn))
          gn (List.range cfg.fnames.length) s.diff).length
          = cfg.nNodes * cfg.fnames.length := by
        rw [diffWrite_length]; exact hdf
      have hmark1 : ∀ g, (s.done.set gn true).getD g false = true
          ↔ g ∈ s.procd ++ [gn] := by
        intro g
        by_cases hg : g = gn
        · subst hg
          rw [getD_set_self (hdl ▸ hlt)]
          simp
        · rw [getD_set_ne (fun he => hg he.symm), hmark g]
          simp [hg]
      have hnd1 : (s.procd ++ [gn]).Nodup := by
        rw [List.nodup_append]
        exact ⟨hnd, List.nodup_singleton gn,
          fun a ha hb => hgnot ((List.mem_singleton.mp hb) ▸ ha)⟩
      have hsel1 : s.sel ++ [selOf cfg.cmesh (cfg.coord gn)]
          = (s.procd ++ [gn]).map (fun g => selOf cfg.cmesh (cfg.coord g)) := by
        rw [List.map_append, hsel]
        rfl
      have hdiff1 : ∀ g ∈ s.procd ++ [gn], ∀ v < cfg.fnames.length,
          (diffWrite cfg.fe cfg.csol cfg.fsol cfg.fnames.length
            (locElem cfg.cmesh (cfg.coord gn))
            (cfg.fe.invMap (locElem cfg.cmesh (cfg.coord gn)) (cfg.coord gn))
            gn (List.range cfg.fnames.length) s.diff).getD
              (g * cfg.fnames.length + v) 0 = nodeDiffFormula cfg g v := by
        intro g hg v hv
        rcases List.mem_append.mp hg with hgp | hgnew
        · rw [diffWrite_getD_notin _ _ (fun c hc he => by
            obtain ⟨rfl, -⟩ := varIdx_inj hv (List.mem_range.mp hc) he
            exact hgnot hgp)]
          exact hdiff g hgp v hv
        · obtain rfl := List.mem_singleton.mp hgnew
          have hlen : g * cfg.fnames.length + v < s.diff.length := by
            have h2 : (g + 1) * cfg.fnames.length
                ≤ cfg.nNodes * cfg.fnames.length :=
              Nat.mul_le_mul_right _ hlt
            rw [Nat.succ_mul] at h2
            rw [hdf]
            omega
          rw [diffWrite_getD_written _ _ (List.nodup_range _)
            (List.mem_range.mpr hv) hlen]
          rfl
      obtain ⟨s', he, c1, c2, c3, c4, c5, c6, c7⟩ :=
        ih (St2.mk (selOf cfg.cmesh (cfg.coord gn))
            (if m then selOf cfg.cmesh (cfg.coord gn) else s.fest)
            (s.done.set gn true)
            (diffWrite cfg.fe cfg.csol cfg.fsol cfg.fnames.length
              (locElem cfg.cmesh (cfg.coord gn))
              (cfg.fe.invMap (locElem cfg.cmesh (cfg.coord gn)) (cfg.coord gn))
              gn (List.range cfg.fnames.length) s.diff)
            (s.trace ++ [((if m then selOf cfg.cmesh (cfg.coord gn) else s.fest),
              selOf cfg.cmesh (cfg.coord gn), m)])
            (s.sel ++ [selOf cfg.cmesh (cfg.coord gn)])
            (s.procd ++ [gn]))
          (fun g hg => hq g (List.mem_cons_of_mem _ hg))
          hdl1 hdf1 hmark1 hnd1 hsel1 hdiff1
      refine ⟨s', ?_, c1, c2, c3, c4, c5, c6, ?_⟩
      · rw [nodeLoop, hstep]
        exact he
      · intro g
        rw [c7 g]
        simp only [List.mem_append, List.mem_cons, List.mem_singleton,
          List.not_mem_nil, or_false]
        tauto

/-! ### Identical coarse and fine data: vanishing of both passes -/

theorem cacheHit_getD {cm : List (Elem P)} {j : Nat} {p : P}
    (h : cacheHit cm j p = true) :
    cm.getD j (dummyElem P) ∈ cm ∧ (cm.getD j (dummyElem P)).contains p = true := by
  unfold cacheHit at h
  rcases hg : cm.get? j with _ | e
  · rw [hg] at h
    exact absurd h (by simp)
  · rw [hg] at h
    have hgd : cm.getD j (dummyElem P) = e := by
      rw [List.getD_eq_getElem?_getD, ← List.get?_eq_getElem?, hg]
      rfl
    rw [hgd]
    exact ⟨List.get?_mem hg, h⟩

theorem fineVal_eq_interpAt {fe : FEOps K P R} {sol : List K} {nv ivar : Nat}
    {fel : Elem P} {gp : Nat}
    (h1 : ∀ i < fel.nodes.length,
      fe.phi fel i gp = fe.shape fel i (fe.invMap fel (fe.qpt fel gp))) :
    fineVal fe sol nv ivar fel gp = interpAt fe sol nv ivar fel (fe.qpt fel gp) := by
  unfold fineVal interpAt coarseVal nodeSum
  congr 1
  apply List.map_congr_left
  intro i hi
  rw [h1 i (List.mem_range.mp hi)]

theorem gpStep_same {cfg : Cfg K P R} {fel : Elem P} {gp : Nat} (s : St1 K)
    (hnm : cfg.cnames = cfg.fnames) (hsol : cfg.csol = cfg.fsol)
    (hiv : cfg.ivar < cfg.fnames.length)
    (hfel : fel ∈ cfg.cmesh) (hgp : gp < cfg.fe.nGP)
    (h1 : ∀ a ∈ cfg.cmesh, ∀ g < cfg.fe.nGP, ∀ i < a.nodes.length,
      cfg.fe.phi a i g = cfg.fe.shape a i (cfg.fe.invMap a (cfg.fe.qpt a g)))
    (h2 : ∀ a ∈ cfg.cmesh, ∀ b ∈ cfg.cmesh, ∀ p, a.contains p = true →
      b.contains p = true → ∀ v < cfg.fnames.length,
      interpAt cfg.fe cfg.csol cfg.fnames.length v a p
        = interpAt cfg.fe cfg.csol cfg.fnames.length v b p)
    (h3 : ∀ a ∈ cfg.cmesh, ∀ g < cfg.fe.nGP,
      a.contains (cfg.fe.qpt a g) = true) :
    ∃ s', gpStep cfg fel gp s = some s' ∧ s'.acc = s.acc := by
  have hex : 0 < contCount cfg.cmesh (cfg.fe.qpt fel gp) :=
    List.countP_pos_iff.mpr ⟨fel, hfel, h3 fel hfel gp hgp⟩
  rcases locate_isSome s.cache hex with ⟨j, m, hl⟩
  obtain ⟨hmem, hcontj⟩ := cacheHit_getD (locate_contains hl)
  have hcs : interpAt cfg.fe cfg.csol cfg.cnames.length cfg.ivar
      (cfg.cmesh.getD j (dummyElem P)) (cfg.fe.qpt fel gp)
      = fineVal cfg.fe cfg.fsol cfg.fnames.length cfg.ivar fel gp := by
    rw [fineVal_eq_interpAt (h1 fel hfel gp hgp), hnm, ← hsol]
    exact h2 _ hmem fel hfel _ hcontj (h3 fel hfel gp hgp) cfg.ivar hiv
  refine ⟨St1.mk j (if m then j else s.fest)
      (s.acc + cfg.fe.jxw fel gp
        * (interpAt cfg.fe cfg.csol cfg.cnames.length cfg.ivar
            (cfg.cmesh.getD j (dummyElem P)) (cfg.fe.qpt fel gp)
          - fineVal cfg.fe cfg.fsol cfg.fnames.length cfg.ivar fel gp)
        * (interpAt cfg.fe cfg.csol cfg.cnames.length cfg.ivar
            (cfg.cmesh.getD j (dummyElem P)) (cfg.fe.qpt fel gp)
          - fineVal cfg.fe cfg.fsol cfg.fnames.length cfg.ivar fel gp))
      (s.trace ++ [((if m then j else s.fest), j, m)])
      (s.sel ++ [j]), ?_, ?_⟩
  · unfold gpStep
    rw [hl]
  · simp only [hcs, sub_self, mul_zero, add_zero]

theorem gpLoop_same {cfg : Cfg K P R} {fel : Elem P}
    (hnm : cfg.cnames = cfg.fnames) (hsol : cfg.csol = cfg.fsol)
    (hiv : cfg.ivar < cfg.fnames.length) (hfel : fel ∈ cfg.cmesh)
    (h1 : ∀ a ∈ cfg.cmesh, ∀ g < cfg.fe.nGP, ∀ i < a.nodes.length,
      cfg.fe.phi a i g = cfg.fe.shape a i (cfg.fe.invMap a (cfg.fe.qpt a g)))
    (h2 : ∀ a ∈ cfg.cmesh, ∀ b ∈ cfg.cmesh, ∀ p, a.contains p = true →
      b.contains p = true → ∀ v < cfg.fnames.length,
      interpAt cfg.fe cfg.csol cfg.fnames.length v a p
        = interpAt cfg.fe cfg.csol cfg.fnames.length v b p)
    (h3 : ∀ a ∈ cfg.cmesh, ∀ g < cfg.fe.nGP,
      a.contains (cfg.fe.qpt a g) = true) :
    ∀ (gps : List Nat), (∀ g ∈ gps, g < cfg.fe.nGP) → ∀ (s : St1 K),
      ∃ s', gpLoop cfg fel gps s = some s' ∧ s'.acc = s.acc := by
  intro gps
  induction gps with
  | nil => exact fun _ s => ⟨s, rfl, rfl⟩
  | cons gp rest ih =>
    intro hb s
    obtain ⟨s1, h1s, ha1⟩ := gpStep_same s hnm hsol hiv hfel
      (hb gp (List.mem_cons_self gp rest)) h1 h2 h3
    obtain ⟨s2, h2s, ha2⟩ := ih (fun g hg => hb g (List.mem_cons_of_mem _ hg)) s1
    refine ⟨s2, ?_, by rw [ha2, ha1]⟩
    rw [gpLoop, h1s]
    exact h2s

theorem pass1_same {cfg : Cfg K P R}
    (hnm : cfg.cnames = cfg.fnames) (hsol : cfg.csol = cfg.fsol)
    (hiv : cfg.ivar < cfg.fnames.length)
    (h1 : ∀ a ∈ cfg.cmesh, ∀ g < cfg.fe.nGP, ∀ i < a.nodes.length,
      cfg.fe.phi a i g = cfg.fe.shape a i (cfg.fe.invMap a (cfg.fe.qpt a g)))
    (h2 : ∀ a ∈ cfg.cmesh, ∀ b ∈ cfg.cmesh, ∀ p, a.contains p = true →
      b.contains p = true → ∀ v < cfg.fnames.length,
      interpAt cfg.fe cfg.csol cfg.fnames.length v a p
        = interpAt cfg.fe cfg.csol cfg.fnames.length v b p)
    (h3 : ∀ a ∈ cfg.cmesh, ∀ g < cfg.fe.nGP,
      a.contains (cfg.fe.qpt a g) = true) :
    ∀ (fels : List (Elem P)), (∀ a ∈ fels, a ∈ cfg.cmesh) → ∀ (s : St1 K),
      ∃ s', pass1 cfg fels s = some s' ∧ s'.acc = s.acc := by
  intro fels
  induction fels with
  | nil => exact fun _ s => ⟨s, rfl, rfl⟩
  | cons fel rest ih =>
    intro hb s
    obtain ⟨s1, h1s, ha1⟩ := gpLoop_same hnm hsol hiv
      (hb fel (List.mem_cons_self fel rest)) h1 h2 h3
      (List.range cfg.fe.nGP) (fun g hg => List.mem_range.mp hg) s
    obtain ⟨s2, h2s, ha2⟩ := ih (fun a ha => hb a (List.mem_cons_of_mem _ ha)) s1
    refine ⟨s2, ?_, by rw [ha2, ha1]⟩
    rw [pass1, h1s]
    exact h2s

theorem getD_set_zero {d : List K} {i : Nat} {x : K}
    (hz : ∀ k, d.getD k 0 = 0) (hx : x = 0) :
    ∀ k, (d.set i x).getD k 0 = 0 := by
  intro k
  by_cases hk : i = k
  · subst hk
    by_cases hi : i < d.length
    · rw [getD_set_self hi, hx]
    · rw [List.set_eq_of_length_le (by omega)]
      exact hz i
  · rw [getD_set_ne hk]
    exact hz k

theorem diffWrite_zero {fe : FEOps K P R} {csol fsol : List K} {nv : Nat}
    {cel : Elem P} {m : R} {gn : Nat} (cs : List Nat) (d : List K)
    (hz : ∀ k, d.getD k 0 = 0)
    (hv : ∀ c ∈ cs, coarseVal fe csol nv c cel m - fsol.getD (gn * nv + c) 0 = 0) :
    ∀ k, (diffWrite fe csol fsol nv cel m gn cs d).getD k 0 = 0 := by
  induction cs generalizing d with
  | nil => exact hz
  | cons c rest ih =>
    rw [diffWrite]
    exact ih _ (getD_set_zero hz (hv c (List.mem_cons_self c rest)))
      (fun c' hc' => hv c' (List.mem_cons_of_mem _ hc'))

theorem nodeStep_same {cfg : Cfg K P R} {gn : Nat} (s : St2 K)
    (h2 : ∀ a ∈ cfg.cmesh, ∀ b ∈ cfg.cmesh, ∀ p, a.contains p = true →
      b.contains p = true → ∀ v < cfg.fnames.length,
      interpAt cfg.fe cfg.csol cfg.fnames.length v a p
        = interpAt cfg.fe cfg.csol cfg.fnames.length v b p)
    (h4 : ∀ a ∈ cfg.cmesh, ∀ g ∈ a.nodes, ∀ v < cfg.fnames.length,
      interpAt cfg.fe cfg.csol cfg.fnames.length v a (cfg.coord g)
        = cfg.fsol.getD (g * cfg.fnames.length + v) 0)
    (h6 : ∀ a ∈ cfg.cmesh, ∀ g ∈ a.nodes, a.contains (cfg.coord g) = true)
    (hgn : ∃ a ∈ cfg.cmesh, gn ∈ a.nodes)
    (hz : ∀ k, s.diff.getD k 0 = 0) :
    ∃ s', nodeStep cfg gn s = some s' ∧ ∀ k, s'.diff.getD k 0 = 0 := by
  by_cases hd : s.done.getD gn false = true
  · exact ⟨s, nodeStep_skip hd, hz⟩
  · obtain ⟨a, hamem, hanode⟩ := hgn
    have hex : 0 < contCount cfg.cmesh (cfg.coord gn) :=
      List.countP_pos_iff.mpr ⟨a, hamem, h6 a hamem gn hanode⟩
    rcases locate_isSome s.cache hex with ⟨j, m, hl⟩
    obtain ⟨hmem, hcontj⟩ := cacheHit_getD (locate_contains hl)
    refine ⟨St2.mk j (if m then j else s.fest) (s.done.set gn true)
        (diffWrite cfg.fe cfg.csol cfg.fsol cfg.fnames.length
          (cfg.cmesh.getD j (dummyElem P))
          (cfg.fe.invMap (cfg.cmesh.getD j (dummyElem P)) (cfg.coord gn))
          gn (List.range cfg.fnames.length) s.diff)
        (s.trace ++ [((if m then j else s.fest), j, m)])
        (s.sel ++ [j]) (s.procd ++ [gn]), ?_, ?_⟩
    · unfold nodeStep
      rw [if_neg hd, hl]
    · refine diffWrite_zero _ _ hz ?_
      intro c hc
      have hcv := List.mem_range.mp hc
      have : coarseVal cfg.fe cfg.csol cfg.fnames.length c
          (cfg.cmesh.getD j (dummyElem P))
          (cfg.fe.invMap (cfg.cmesh.getD j (dummyElem P)) (cfg.coord gn))
          = cfg.fsol.getD (gn * cfg.fnames.length + c) 0 := by
        have hstep := h2 _ hmem a hamem _ hcontj (h6 a hamem gn hanode) c hcv
        rw [interpAt] at hstep
        rw [hstep]
        exact h4 a hamem gn hanode c hcv
      rw [this, sub_self]

theorem nodeLoop_same {cfg : Cfg K P R}
    (h2 : ∀ a ∈ cfg.cmesh, ∀ b ∈ cfg.cmesh, ∀ p, a.contains p = true →
      b.contains p = true → ∀ v < cfg.fnames.length,
      interpAt cfg.fe cfg.csol cfg.fnames.length v a p
        = interpAt cfg.fe cfg.csol cfg.fnames.length v b p)
    (h4 : ∀ a ∈ cfg.cmesh, ∀ g ∈ a.nodes, ∀ v < cfg.fnames.length,
      interpAt cfg.fe cfg.csol cfg.fnames.length v a (cfg.coord g)
        = cfg.fsol.getD (g * cfg.fnames.length + v) 0)
    (h6 : ∀ a ∈ cfg.cmesh, ∀ g ∈ a.nodes, a.contains (cfg.coord g) = true) :
    ∀ (gns : List Nat), (∀ g ∈ gns, ∃ a ∈ cfg.cmesh, g ∈ a.nodes) →
      ∀ (s : St2 K), (∀ k, s.diff.getD k 0 = 0) →
      ∃ s', nodeLoop cfg gns s = some s' ∧ ∀ k, s'.diff.getD k 0 = 0 := by
  intro gns
  induction gns with
  | nil => exact fun _ s hz => ⟨s, rfl, hz⟩
  | cons gn rest ih =>
    intro hb s hz
    obtain ⟨s1, h1s, hz1⟩ :=
      nodeStep_same s h2 h4 h6 (hb gn (List.mem_cons_self gn rest)) hz
    obtain ⟨s2, h2s, hz2⟩ := ih (fun g hg => hb g (List.mem_cons_of_mem _ hg)) s1 hz1
    refine ⟨s2, ?_, hz2⟩
    rw [nodeLoop, h1s]
    exact h2s

end Driver

/-! ## Theorems for the driver claims -/

/-- **C1 counterexample.** On a coarse mesh whose elements 0 and 1
both accept point 7 (a shared face), the error-metric sweep first
misses into element 1 (query point 6) and then cache-hits element 1
at query point 7, so the element used for interpolation there is
element 1 — while a direct `find_element` query for point 7 returns
element 0.  The single-slot cache does change which element is
selected. -/
theorem cached_locator_identical_counterexample :
    (Driver.pass1 Driver.cexCfgC1 Driver.cexCfgC1.fmesh Driver.init1).map Driver.St1.sel
      = some [1, 1]
    ∧ Driver.cexCfgC1.fe.qpt (Driver.fElem [0]) 1 = 7
    ∧ Driver.find_element Driver.cexCfgC1.cmesh 7 = some 0
    ∧ (1 : Nat) ≠ 0 :=
  ⟨rfl, rfl, rfl, by decide⟩

/-- **C1 (amended).** The cached point locator agrees with a direct
octree `find_element` query at every query point that is contained in
at most one coarse element: (i) whenever a locate succeeds at such a
point, the element it returns is exactly `find_element`'s result,
whatever the cache holds; consequently (ii) when every quadrature
point of the error-metric sweep has at most (and at least) one
containing element, the sweep's per-point selections are exactly the
direct-query selections, and (iii) likewise for the nodes processed
by the nodal-difference sweep.  On points contained in several
elements (shared faces) the cache may select a different containing
element than the octree, as the counterexample shows. -/
theorem cached_locator_identical {K : Type} [CommRing K] {P R : Type}
    (cfg : Driver.Cfg K P R) :
    (∀ (cur : Nat) (p : P) (j : Nat) (m : Bool),
      Driver.contCount cfg.cmesh p ≤ 1 →
      Driver.locate cfg.cmesh cur p = some (j, m) →
      Driver.find_element cfg.cmesh p = some j)
    ∧ ((∀ fel ∈ cfg.fmesh, ∀ gp ∈ List.range cfg.fe.nGP,
        Driver.contCount cfg.cmesh (cfg.fe.qpt fel gp) ≤ 1
        ∧ 0 < Driver.contCount cfg.cmesh (cfg.fe.qpt fel gp)) →
      ∃ s1, Driver.pass1 cfg cfg.fmesh Driver.init1 = some s1
        ∧ s1.sel = Driver.sels1 cfg cfg.fmesh)
    ∧ (∀ fest0 : Nat, (∀ gn ∈ Driver.fineNodeSeq cfg.fmesh,
        Driver.contCount cfg.cmesh (cfg.coord gn) ≤ 1
        ∧ 0 < Driver.contCount cfg.cmesh (cfg.coord gn) ∧ gn < cfg.nNodes) →
      cfg.fsol.length = cfg.nNodes * cfg.fnames.length →
      ∃ s2, Driver.pass2 cfg fest0 = some s2
        ∧ s2.sel = s2.procd.map (fun g => Driver.selOf cfg.cmesh (cfg.coord g))) := by
  refine ⟨?_, ?_, ?_⟩
  · intro cur p j m hu hl
    exact Driver.locate_sel hu hl
  · intro h
    obtain ⟨s1, he, -, hsel⟩ := Driver.pass1_char cfg.fmesh Driver.init1 h
    exact ⟨s1, he, by simpa [Driver.init1] using hsel⟩
  · intro fest0 hq hlen
    obtain ⟨s2, he, -, -, -, -, hsel, -, -⟩ :=
      Driver.nodeLoop_master (Driver.fineNodeSeq cfg.fmesh) (Driver.init2 cfg fest0)
        hq (by simp [Driver.init2]) (by simp [Driver.init2, hlen])
        (by intro g; simp [Driver.init2]) (by simp [Driver.init2])
        (by simp [Driver.init2]) (by intro g hg; simp [Driver.init2] at hg)
    exact ⟨s2, he, hsel⟩

/-- Witness for **C1 (amended)** at a concrete query: on the witness
configuration the locator, with a cold cache on element 0, resolves
point 0 to element 0 — the same element a direct `find_element` query
returns. -/
theorem cached_locator_identical_witness :
    Driver.find_element Driver.exCfgC3.cmesh 0 = some 0 :=
  (cached_locator_identical Driver.exCfgC3).1 0 0 0 false (by decide) (by decide)

/-- **C2.** A locate failure is fatal, exactly when both the cached
test and the octree query fail: (i) the cached locator aborts at a
query point precisely when the remembered element's precise
containment test fails and `find_element` also returns no element;
(ii)/(iii) when either pass aborts this way, the whole run returns
the fatal `locateFail` error — no query point is skipped and no
partial output is produced. -/
theorem locate_failure_fatal {K : Type} [CommRing K] {P R : Type} :
    (∀ (cm : List (Driver.Elem P)) (cur : Nat) (p : P),
      Driver.locate cm cur p = none
      ↔ (Driver.cacheHit cm cur p = false ∧ Driver.find_element cm p = none))
    ∧ (∀ (cfg : Driver.Cfg K P R), ¬ cfg.args.length < 6 →
        cfg.fnames = cfg.cnames →
        Driver.pass1 cfg cfg.fmesh Driver.init1 = none →
        Driver.mainModel cfg = .error .locateFail)
    ∧ (∀ (cfg : Driver.Cfg K P R) (s1 : Driver.St1 K), ¬ cfg.args.length < 6 →
        cfg.fnames = cfg.cnames →
        Driver.pass1 cfg cfg.fmesh Driver.init1 = some s1 →
        Driver.pass2 cfg s1.fest = none →
        Driver.mainModel cfg = .error .locateFail) := by
  refine ⟨fun cm cur p => Driver.locate_none_iff, ?_, ?_⟩
  · intro cfg h6 hnm hp
    unfold Driver.mainModel
    rw [if_neg h6, if_pos hnm]
    simp [hp]
  · intro cfg s1 h6 hnm hp1 hp2
    unfold Driver.mainModel
    rw [if_neg h6, if_pos hnm]
    simp [hp1, hp2]

/-- Witness for **C2** at concrete inputs: on the witness
configuration the single coarse element does not contain the query
point 3 and the octree query fails too, so the locate step aborts,
and the whole run returns the fatal `locateFail` error. -/
theorem locate_failure_fatal_witness :
    Driver.locate Driver.cexCfgC2.cmesh 0 3 = none
    ∧ Driver.mainModel Driver.cexCfgC2 = .error .locateFail := by
  refine ⟨?_, ?_⟩
  · exact (@locate_failure_fatal ℤ _ Nat Nat).1
      Driver.cexCfgC2.cmesh 0 3 |>.mpr ⟨by decide, by decide⟩
  · exact (@locate_failure_fatal ℤ _ Nat Nat).2.1 Driver.cexCfgC2
      (by decide) (by decide) rfl

/-- **C3.** When every quadrature point of the sweep lies in exactly
one coarse element (so "the containing coarse element" is well
defined), the error-metric pass completes and its accumulated sum is
exactly `Σ_elements Σ_gauss JxW[gp]·(coarse_soln − fine_soln)²`, with
`fine_soln = Σ_i fine_field[node_i·nv+ivar]·phi[i][gp]` and
`coarse_soln` the coarse interpolation at the same physical point via
the inverse map and shape values of the containing element
(`errorSqFormula`/`gpContrib`); the reported metric is the square
root of that sum. -/
theorem error_metric_is_L2_formula {P R : Type} (cfg : Driver.Cfg ℚ P R)
    (h : ∀ fel ∈ cfg.fmesh, ∀ gp ∈ List.range cfg.fe.nGP,
      Driver.contCount cfg.cmesh (cfg.fe.qpt fel gp) ≤ 1
      ∧ 0 < Driver.contCount cfg.cmesh (cfg.fe.qpt fel gp)) :
    ∃ s1, Driver.pass1 cfg cfg.fmesh Driver.init1 = some s1
      ∧ s1.acc = Driver.errorSqFormula cfg
      ∧ Real.sqrt ((s1.acc : ℚ) : ℝ)
        = Real.sqrt ((Driver.errorSqFormula cfg : ℚ) : ℝ) := by
  obtain ⟨s1, he, hacc, -⟩ := Driver.pass1_char cfg.fmesh Driver.init1 h
  refine ⟨s1, he, ?_, ?_⟩
  · rw [hacc]
    simp [Driver.init1, Driver.errorSqFormula]
  · rw [hacc]
    simp [Driver.init1, Driver.errorSqFormula]

/-- Witness for **C3** at the concrete witness configuration: the
pass completes and accumulates exactly the closed-form sum (which
evaluates to 90 there). -/
theorem error_metric_is_L2_formula_witness :
    (Driver.pass1 Driver.exCfgC3 Driver.exCfgC3.fmesh Driver.init1).map Driver.St1.acc
      = some (Driver.errorSqFormula Driver.exCfgC3) := by
  obtain ⟨s1, he, hacc, -⟩ := error_metric_is_L2_formula Driver.exCfgC3 (by decide)
  rw [he, Option.map_some', hacc]

/-- **C4.** The nodal-difference pass visits each fine-mesh node at
most once (the processed nodes are pairwise distinct, and are exactly
the nodes occurring in fine elements); the output vector keeps the
size `node_count × variable_count`; for every processed node `n` and
variable `v` the entry at `n·nv+v` is `coarse_value − fine_value`
(`nodeDiffFormula`); and a completed run's difference field carries
the fine field's variable-name list unchanged. -/
theorem nodal_difference_pass_spec {K : Type} [CommRing K] {P R : Type}
    (cfg : Driver.Cfg K P R) (fest0 : Nat)
    (hq : ∀ gn ∈ Driver.fineNodeSeq cfg.fmesh,
      Driver.contCount cfg.cmesh (cfg.coord gn) ≤ 1
      ∧ 0 < Driver.contCount cfg.cmesh (cfg.coord gn) ∧ gn < cfg.nNodes)
    (hlen : cfg.fsol.length = cfg.nNodes * cfg.fnames.length) :
    (∃ s2, Driver.pass2 cfg fest0 = some s2
      ∧ s2.procd.Nodup
      ∧ (∀ g, g ∈ s2.procd ↔ g ∈ Driver.fineNodeSeq cfg.fmesh)
      ∧ s2.diff.length = cfg.nNodes * cfg.fnames.length
      ∧ (∀ g ∈ s2.procd, ∀ v < cfg.fnames.length,
          s2.diff.getD (g * cfg.fnames.length + v) 0
            = Driver.nodeDiffFormula cfg g v))
    ∧ (∀ out, Driver.mainModel cfg = .ok out → out.diffNames = cfg.fnames) := by
  constructor
  · obtain ⟨s2, he, -, hdf, -, hnd, -, hdiff, hmem⟩ :=
      Driver.nodeLoop_master (Driver.fineNodeSeq cfg.fmesh) (Driver.init2 cfg fest0)
        hq (by simp [Driver.init2]) (by simp [Driver.init2, hlen])
        (by intro g; simp [Driver.init2]) (by simp [Driver.init2])
        (by simp [Driver.init2]) (by intro g hg; simp [Driver.init2] at hg)
    refine ⟨s2, he, hnd, ?_, hdf, hdiff⟩
    intro g
    rw [hmem g]
    simp [Driver.init2]
  · intro out h
    unfold Driver.mainModel at h
    by_cases h6 : cfg.args.length < 6
    · rw [if_pos h6] at h
      exact absurd h (by simp)
    · rw [if_neg h6] at h
      by_cases hn : cfg.fnames = cfg.cnames
      · rw [if_pos hn] at h
        rcases hp1 : Driver.pass1 cfg cfg.fmesh Driver.init1 with _ | s1
        · simp only [hp1] at h
          exact absurd h (by simp)
        · simp only [hp1] at h
          rcases hp2 : Driver.pass2 cfg s1.fest with _ | s2
          · simp only [hp2] at h
            exact absurd h (by simp)
          · simp only [hp2, Except.ok.injEq] at h
            rw [← h]
      · rw [if_neg hn] at h
        exact absurd h (by simp)

/-- Witness for **C4** at the concrete witness configuration: the
nodal pass completes and its difference vector keeps the input
field's size (3 = 3 nodes × 1 variable). -/
theorem nodal_difference_pass_spec_witness :
    (Driver.pass2 Driver.exCfgC3 0).isSome = true
    ∧ (Driver.pass2 Driver.exCfgC3 0).map (fun s => s.diff.length) = some 3 := by
  obtain ⟨⟨s2, he, -, -, hdf, -⟩, -⟩ :=
    nodal_difference_pass_spec Driver.exCfgC3 0 (by decide) (by decide)
  rw [he]
  exact ⟨rfl, by rw [Option.map_some']; exact congrArg some hdf⟩

/-- **C5 counterexample.** A full run on a two-element coarse mesh in
which the error-metric pass ends with the cache and `fe_coarse` on
element 1, and the nodal pass's first node hits the freshly reset
cache slot (element 0).  The nodal pass's single `inverse_map`
invocation is recorded as `(1, 0, false)`: the element argument is 0
but `fe_coarse` is still initialised for element 1 — the cache slot
changed at the start of the second pass without a reinitialisation. -/
theorem fe_reinit_on_cache_change_counterexample :
    Driver.mainModel Driver.cexCfgC5
      = .ok ⟨0, [0], ["u"], [(1, 1, true)], [(1, 0, false)], [1], [0], [0]⟩
    ∧ (1 : Nat) ≠ 0 :=
  ⟨rfl, by decide⟩

/-- **C5 (amended).** `fe_coarse` is reinitialised for the newly
found element on every locate-miss (in both passes), and throughout
the error-metric pass — whose start does reset cache slot and
`fe_coarse` together — every `inverse_map` invocation finds
`fe_coarse` initialised for the element being queried.  At the start
of the nodal-difference pass, however, the cache slot is reset to the
first coarse element without reinitialising `fe_coarse`, so a
cache-hit invocation there may use `fe_coarse` state left over from
the previous pass (see the counterexample). -/
theorem fe_reinit_on_miss {K : Type} [CommRing K] {P R : Type}
    (cfg : Driver.Cfg K P R) :
    (∀ s1 : Driver.St1 K, Driver.pass1 cfg cfg.fmesh Driver.init1 = some s1 →
      ∀ t ∈ s1.trace, t.1 = t.2.1)
    ∧ (∀ (fest0 : Nat) (s2 : Driver.St2 K), Driver.pass2 cfg fest0 = some s2 →
      ∀ t ∈ s2.trace, t.2.2 = true → t.1 = t.2.1) := by
  constructor
  · intro s1 h
    exact (Driver.pass1_align cfg.fmesh Driver.init1 rfl (by simp [Driver.init1]) s1 h).2
  · intro fest0 s2 h
    exact Driver.nodeLoop_missAlign (Driver.fineNodeSeq cfg.fmesh)
      (Driver.init2 cfg fest0) (by simp [Driver.init2]) s2 h

/-- Witness for **C5 (amended)** at a concrete run: the first trace
entry of the counterexample configuration's error-metric pass — a
miss that reinitialised `fe_coarse` for element 1 and immediately
inverse-mapped on it — is aligned. -/
theorem fe_reinit_on_miss_witness :
    ((1 : Nat), (1 : Nat), true).1 = ((1 : Nat), (1 : Nat), true).2.1 :=
  (fe_reinit_on_miss Driver.cexCfgC5).1
    ⟨1, 1, 0, [(1, 1, true)], [1]⟩ rfl (1, 1, true) (by decide)

/-- **C6.** If the two input fields' ordered variable-name lists
differ, the run fails with the fatal schema-mismatch error.  The
statement holds for every configuration — in particular for every
coarse mesh, solution vector and finite-element oracle — so the
failure happens before any octree construction, quadrature,
interpolation or error accumulation can influence the result, and no
partial output is produced. -/
theorem var_name_mismatch_fatal {K : Type} [CommRing K] {P R : Type}
    (cfg : Driver.Cfg K P R) (h6 : ¬ cfg.args.length < 6)
    (hnm : cfg.fnames ≠ cfg.cnames) :
    Driver.mainModel cfg = .error .varMismatch := by
  unfold Driver.mainModel
  rw [if_neg h6, if_neg hnm]

/-- Witness for **C6** at the concrete mismatching configuration
(fine names `["u"]`, coarse names `["v"]`). -/
theorem var_name_mismatch_fatal_witness :
    Driver.mainModel Driver.cexCfgC6 = .error .varMismatch :=
  var_name_mismatch_fatal Driver.cexCfgC6 (by decide) (by decide)

/-- **C8.** Invoked with fewer than six command-line arguments, the
driver prints the usage synopsis (to `std::cerr`) and aborts with the
fatal usage error.  The statement holds for every configuration, so
in particular the outcome is independent of all four input artifacts
— none of them is consulted. -/
theorem usage_error_on_missing_args {K : Type} [CommRing K] {P R : Type}
    (cfg : Driver.Cfg K P R) (h : cfg.args.length < 6) :
    Driver.mainModel cfg
      = .error (.usage (Driver.usageMsg (cfg.args.getD 0 ""))) := by
  unfold Driver.mainModel
  rw [if_pos h]

/-- Witness for **C8** at a concrete single-argument invocation,
with the synopsis text spelled out. -/
theorem usage_error_on_missing_args_witness :
    Driver.mainModel Driver.cexCfgC8
      = .error (.usage "Usage: prog ivar m0.mesh m1.mesh s0.soln s1.soln") :=
  usage_error_on_missing_args Driver.cexCfgC8 (by decide)

/-- **C7.** If the coarse and fine meshes are the same mesh and the
two field vectors are the same vector, then — provided the
finite-element data is self-consistent: the fine basis values agree
with the shape values at inverse-mapped quadrature points (`h1`), the
interpolated field is single-valued across elements containing the
same point (`h2`), elements contain their own quadrature points
(`h3`) and nodes (`h6`), and nodal interpolation reproduces the nodal
values (`h4`) — the run completes with an accumulated error sum of
exactly zero (hence a reported L2 error of √0 = 0) and a nodal
difference field that is exactly zero in every entry. -/
theorem identical_inputs_zero_error {K : Type} [CommRing K] {P R : Type}
    (cfg : Driver.Cfg K P R)
    (hmm : cfg.fmesh = cfg.cmesh) (hsol : cfg.csol = cfg.fsol)
    (hnm : cfg.cnames = cfg.fnames) (h6args : ¬ cfg.args.length < 6)
    (hiv : cfg.ivar < cfg.fnames.length)
    (h1 : ∀ a ∈ cfg.cmesh, ∀ g < cfg.fe.nGP, ∀ i < a.nodes.length,
      cfg.fe.phi a i g = cfg.fe.shape a i (cfg.fe.invMap a (cfg.fe.qpt a g)))
    (h2 : ∀ a ∈ cfg.cmesh, ∀ b ∈ cfg.cmesh, ∀ p, a.contains p = true →
      b.contains p = true → ∀ v < cfg.fnames.length,
      Driver.interpAt cfg.fe cfg.csol cfg.fnames.length v a p
        = Driver.interpAt cfg.fe cfg.csol cfg.fnames.length v b p)
    (h3 : ∀ a ∈ cfg.cmesh, ∀ g < cfg.fe.nGP,
      a.contains (cfg.fe.qpt a g) = true)
    (h4 : ∀ a ∈ cfg.cmesh, ∀ g ∈ a.nodes, ∀ v < cfg.fnames.length,
      Driver.interpAt cfg.fe cfg.csol cfg.fnames.length v a (cfg.coord g)
        = cfg.fsol.getD (g * cfg.fnames.length + v) 0)
    (h6 : ∀ a ∈ cfg.cmesh, ∀ g ∈ a.nodes, a.contains (cfg.coord g) = true) :
    ∃ out, Driver.mainModel cfg = .ok out
      ∧ out.errorSq = 0
      ∧ ∀ k, out.diff.getD k 0 = 0 := by
  obtain ⟨s1, hp1, hacc⟩ := Driver.pass1_same hnm hsol hiv h1 h2 h3 cfg.fmesh
    (fun a ha => hmm ▸ ha) Driver.init1
  obtain ⟨s2, hp2, hz⟩ := Driver.nodeLoop_same h2 h4 h6
    (Driver.fineNodeSeq cfg.fmesh)
    (fun g hg => by
      rw [Driver.fineNodeSeq] at hg
      obtain ⟨l, hl, hgl⟩ := List.mem_flatten.mp hg
      obtain ⟨a, ha, rfl⟩ := List.mem_map.mp hl
      exact ⟨a, hmm ▸ ha, hgl⟩)
    (Driver.init2 cfg s1.fest)
    (fun k => by
      simp [Driver.init2, List.getD_eq_getElem?_getD, List.getElem?_replicate]
      split <;> simp)
  have hp2' : Driver.pass2 cfg s1.fest = some s2 := hp2
  refine ⟨⟨s1.acc, s2.diff, cfg.fnames, s1.trace, s2.trace,
    s1.sel, s2.sel, s2.procd⟩, ?_, ?_, ?_⟩
  · unfold Driver.mainModel
    rw [if_neg h6args, if_pos hnm.symm]
    simp only [hp1, hp2']
  · simpa [Driver.init1] using hacc
  · exact hz

/-- Witness for **C7** at a concrete one-element mesh used as both
coarse and fine input with field value 3: the run completes with
error sum 0 and a zero difference entry. -/
theorem identical_inputs_zero_error_witness :
    (Driver.mainModel Driver.exCfgC7).map (fun o => o.errorSq) = .ok 0
    ∧ (Driver.mainModel Driver.exCfgC7).map (fun o => o.diff.getD 0 0) = .ok 0 := by
  obtain ⟨out, hok, hz, hd⟩ := identical_inputs_zero_error Driver.exCfgC7
    rfl rfl rfl (by decide) (by decide)
    (by intro a ha g hg i hi; rfl)
    (by
      intro a ha b hb p hpa hpb v hv
      obtain rfl : a = ⟨[0], fun _ => true⟩ := List.mem_singleton.mp ha
      obtain rfl : b = ⟨[0], fun _ => true⟩ := List.mem_singleton.mp hb
      rfl)
    (by
      intro a ha g hg
      obtain rfl : a = ⟨[0], fun _ => true⟩ := List.mem_singleton.mp ha
      rfl)
    (by
      intro a ha g hg v hv
      obtain rfl : a = ⟨[0], fun _ => true⟩ := List.mem_singleton.mp ha
      obtain rfl : g = 0 := List.mem_singleton.mp hg
      obtain rfl : v = 0 := Nat.lt_one_iff.mp hv
      decide)
    (by
      intro a ha g hg
      obtain rfl : a = ⟨[0], fun _ => true⟩ := List.mem_singleton.mp ha
      rfl)
  rw [hok]
  exact ⟨congrArg Except.ok hz, congrArg Except.ok (hd 0)⟩
